import Mathlib

/-!
Verification of the `generic-rat` core (src/src/lib.rs): an in-memory
virtual file system backed by a `BTreeMap<String, Vec<u8>>`, a preview
projector, and a keyboard event dispatch loop.

The embedding conventions:
* `Vec<u8>` is `List Nat` (each element a byte value).
* `BTreeMap<String, Vec<u8>>` is a strictly-sorted association list
  `List (String × List Nat)` together with its sortedness invariant.
  Rust orders `String` keys by byte-wise UTF-8 comparison, which agrees
  with Lean's lexicographic `String` order on code points because UTF-8
  preserves code-point order.
* Asynchronous external calls (file pick, text fetch, zip download) are
  oracles: each keyboard event carries the outcome of the external call
  the corresponding handler awaits, and the handler is a pure state
  transition on that outcome.
* `App::rebuild_previews` holds the `RefMut` guard of line 73 while
  calling `self.previews.borrow()` at line 89, a `RefCell` borrow check
  that panics whenever a VFS is mounted. `rebuild_previews_run` models
  the function with these borrow dynamics explicit; `rebuild_previews`
  is the same body with the panic elided, kept as the transition the
  event-loop embedding commits.
-/

/-- `FileEntry { path, bytes }` from the source. -/
structure FileEntry where
  path : String
  bytes : List Nat
deriving DecidableEq, Repr

/-- Code-point-lexicographic comparison of char lists. On UTF-8 data
this equals Rust's byte-wise `Ord` for `String` (UTF-8 preserves
code-point order), and it is the order of Lean's `String <` instance
(`keyLt_iff` below); unlike `String.ltb` it evaluates by `decide`. -/
def charsLt : List Char → List Char → Bool
  | _, [] => false
  | [], _ :: _ => true
  | a :: as, b :: bs =>
    if a.toNat < b.toNat then true
    else if a.toNat = b.toNat then charsLt as bs
    else false

/-- The key order of `BTreeMap<String, _>`: lexicographic on the
string's characters. -/
def keyLt (a b : String) : Bool := charsLt a.data b.data

theorem char_lt_iff (a b : Char) : a.toNat < b.toNat ↔ a < b := Iff.rfl

theorem char_eq_of_toNat_eq {a b : Char} (h : a.toNat = b.toNat) : a = b :=
  Char.eq_of_val_eq (UInt32.toNat.inj h)

theorem charsLt_iff (as bs : List Char) :
    charsLt as bs = true ↔ List.Lex (· < ·) as bs := by
  induction as generalizing bs with
  | nil =>
    cases bs with
    | nil => exact iff_of_false (by simp [charsLt]) (by intro h; cases h)
    | cons b bs => exact iff_of_true rfl List.Lex.nil
  | cons a as ih =>
    cases bs with
    | nil => exact iff_of_false (by simp [charsLt]) (by intro h; cases h)
    | cons b bs =>
      rcases Nat.lt_trichotomy a.toNat b.toNat with hlt | heq | hgt
      · exact iff_of_true (by simp [charsLt, hlt])
          (List.Lex.rel ((char_lt_iff a b).mp hlt))
      · have hab : a = b := char_eq_of_toNat_eq heq
        subst hab
        have h1 : ¬ a.toNat < a.toNat := lt_irrefl _
        constructor
        · intro h
          exact List.Lex.cons ((ih bs).mp (by simpa [charsLt, h1] using h))
        · intro h
          have hl : List.Lex (· < ·) as bs := by
            cases h with
            | cons h => exact h
            | rel h => exact absurd h (lt_irrefl a)
          simpa [charsLt, h1] using (ih bs).mpr hl
      · refine iff_of_false (by simp [charsLt]; omega) ?_
        intro h
        cases h with
        | rel h => exact absurd ((char_lt_iff a b).mpr h) (by omega)
        | cons h => exact absurd hgt (lt_irrefl _)

/-- `keyLt` is Lean's `String <` (and hence a strict linear order). -/
theorem keyLt_iff (a b : String) : keyLt a b = true ↔ a < b := by
  rw [keyLt, charsLt_iff, String.lt_iff_toList_lt]
  exact Iff.rfl

/-- The map insertion of `BTreeMap::insert` on a strictly-sorted
association list: place the new binding at its ordered position,
overwriting the value when the key is already present. -/
def insertSorted (p : String) (b : List Nat) :
    List (String × List Nat) → List (String × List Nat)
  | [] => [(p, b)]
  | (k, v) :: t =>
    if keyLt p k then (p, b) :: (k, v) :: t
    else if p = k then (p, b) :: t
    else (k, v) :: insertSorted p b t

/-- `InMemoryVfs { files: BTreeMap<String, Vec<u8>> }`: the association
list carries the B-tree's strict key ordering as an invariant. -/
structure InMemoryVfs where
  files : List (String × List Nat)
  sorted : files.Pairwise fun a b => a.1 < b.1

/-- `Vfs::list` for `InMemoryVfs`: `self.files.keys().cloned().collect()`. -/
def InMemoryVfs.list (v : InMemoryVfs) : List String :=
  v.files.map fun e => e.1

/-- `Vfs::read` for `InMemoryVfs`: `self.files.get(path).cloned()`. -/
def InMemoryVfs.read (v : InMemoryVfs) (path : String) : Option (List Nat) :=
  v.files.lookup path

theorem mem_insertSorted {p : String} {b : List Nat}
    {l : List (String × List Nat)} {x : String × List Nat}
    (hx : x ∈ insertSorted p b l) : x = (p, b) ∨ x ∈ l := by
  induction l with
  | nil => simpa [insertSorted] using hx
  | cons e t ih =>
    obtain ⟨k, v⟩ := e
    by_cases h1 : keyLt p k = true
    · simp only [insertSorted, if_pos h1] at hx
      rcases List.mem_cons.mp hx with h | h
      · exact Or.inl h
      · exact Or.inr h
    · by_cases h2 : p = k
      · simp only [insertSorted, if_neg h1, if_pos h2] at hx
        rcases List.mem_cons.mp hx with h | h
        · exact Or.inl h
        · exact Or.inr (List.mem_cons_of_mem _ h)
      · simp only [insertSorted, if_neg h1, if_neg h2] at hx
        rcases List.mem_cons.mp hx with h | h
        · exact Or.inr (by simp [h])
        · rcases ih h with h' | h'
          · exact Or.inl h'
          · exact Or.inr (List.mem_cons_of_mem _ h')

theorem pairwise_insertSorted {p : String} {b : List Nat}
    {l : List (String × List Nat)}
    (h : l.Pairwise fun a c => a.1 < c.1) :
    (insertSorted p b l).Pairwise fun a c => a.1 < c.1 := by
  induction l with
  | nil => simp [insertSorted]
  | cons e t ih =>
    obtain ⟨k, v⟩ := e
    rw [List.pairwise_cons] at h
    obtain ⟨hk, ht⟩ := h
    by_cases h1 : keyLt p k = true
    · have hpk : p < k := (keyLt_iff p k).mp h1
      simp only [insertSorted, if_pos h1]
      refine List.pairwise_cons.mpr ⟨?_, List.pairwise_cons.mpr ⟨hk, ht⟩⟩
      intro x hx
      rcases List.mem_cons.mp hx with h | h
      · simpa [h] using hpk
      · exact lt_trans hpk (hk x h)
    · by_cases h2 : p = k
      · simp only [insertSorted, if_neg h1, if_pos h2]
        refine List.pairwise_cons.mpr ⟨?_, ht⟩
        intro x hx
        simpa [h2] using hk x hx
      · simp only [insertSorted, if_neg h1, if_neg h2]
        refine List.pairwise_cons.mpr ⟨?_, ih ht⟩
        intro x hx
        have hnlt : ¬ p < k := fun hh => h1 ((keyLt_iff p k).mpr hh)
        rcases mem_insertSorted hx with h | h
        · have hkp : k < p := lt_of_le_of_ne (not_lt.mp hnlt) (Ne.symm h2)
          simpa [h] using hkp
        · exact hk x h

/-- `Vfs::write` for `InMemoryVfs`:
`self.files.insert(path.to_string(), data)`. -/
def InMemoryVfs.write (v : InMemoryVfs) (path : String) (data : List Nat) :
    InMemoryVfs :=
  ⟨insertSorted path data v.files, pairwise_insertSorted v.sorted⟩

/-- `mount_picked_crate` after `gather_files` has succeeded:
`let mut map = BTreeMap::new(); for f in files { map.insert(f.path, f.bytes); }`. -/
def mount_picked_crate (files : List FileEntry) : InMemoryVfs :=
  files.foldl (fun m f => m.write f.path f.bytes)
    ⟨[], List.Pairwise.nil⟩

/-- `export_as_zip`: for each `p in vfs.list()` push the record
`{ path: p, bytes: vfs.read(&p).unwrap_or_default() }`; the resulting
sequence is what `downloadAsZip` receives. -/
def export_as_zip (v : InMemoryVfs) : List FileEntry :=
  v.list.map fun p => { path := p, bytes := (v.read p).getD [] }

/-- The U+FFFD replacement character emitted by `String::from_utf8_lossy`. -/
def replacementChar : Char := Char.ofNat 0xFFFD

/-- A UTF-8 continuation byte, `0x80..=0xBF`. -/
def isCont (b : Nat) : Bool := 0x80 ≤ b && b ≤ 0xBF

/-- Valid range for the second byte of a multi-byte UTF-8 sequence whose
lead byte is `b` (the ranges of Rust's UTF-8 validation, which exclude
overlong encodings, surrogates and values above U+10FFFF). -/
def utf8SecondValid (b c : Nat) : Bool :=
  if b = 0xE0 then 0xA0 ≤ c && c ≤ 0xBF
  else if b = 0xED then 0x80 ≤ c && c ≤ 0x9F
  else if b = 0xF0 then 0x90 ≤ c && c ≤ 0xBF
  else if b = 0xF4 then 0x80 ≤ c && c ≤ 0x8F
  else isCont c

/-- Decoder state of `from_utf8_lossy`: either between sequences, or
inside a multi-byte sequence whose bytes so far were valid. -/
inductive Utf8State where
  | start
  | two (b : Nat)
  | three1 (b : Nat)
  | three2 (b c1 : Nat)
  | four1 (b : Nat)
  | four2 (b c1 : Nat)
  | four3 (b c1 c2 : Nat)

/-- Process one byte from between sequences: ASCII decodes at once, a
valid lead byte opens a sequence, anything else is replaced. -/
def utf8Start (b : Nat) : List Char × Utf8State :=
  if b ≤ 0x7F then ([Char.ofNat b], .start)
  else if 0xC2 ≤ b && b ≤ 0xDF then ([], .two b)
  else if 0xE0 ≤ b && b ≤ 0xEF then ([], .three1 b)
  else if 0xF0 ≤ b && b ≤ 0xF4 then ([], .four1 b)
  else ([replacementChar], .start)

/-- Process one byte in any decoder state. An invalid byte inside a
sequence emits one U+FFFD for the sequence's maximal valid prefix and is
then re-examined as the start of a new sequence. -/
def utf8Step (st : Utf8State) (b : Nat) : List Char × Utf8State :=
  match st with
  | .start => utf8Start b
  | .two l =>
    if isCont b then
      ([Char.ofNat ((l % 0x20) * 0x40 + b % 0x40)], .start)
    else
      match utf8Start b with
      | (cs, st1) => (replacementChar :: cs, st1)
  | .three1 l =>
    if utf8SecondValid l b then ([], .three2 l b)
    else
      match utf8Start b with
      | (cs, st1) => (replacementChar :: cs, st1)
  | .three2 l c1 =>
    if isCont b then
      ([Char.ofNat ((l % 0x10) * 0x1000 + (c1 % 0x40) * 0x40 + b % 0x40)], .start)
    else
      match utf8Start b with
      | (cs, st1) => (replacementChar :: cs, st1)
  | .four1 l =>
    if utf8SecondValid l b then ([], .four2 l b)
    else
      match utf8Start b with
      | (cs, st1) => (replacementChar :: cs, st1)
  | .four2 l c1 =>
    if isCont b then ([], .four3 l c1 b)
    else
      match utf8Start b with
      | (cs, st1) => (replacementChar :: cs, st1)
  | .four3 l c1 c2 =>
    if isCont b then
      ([Char.ofNat ((l % 0x8) * 0x40000 + (c1 % 0x40) * 0x1000 +
          (c2 % 0x40) * 0x40 + b % 0x40)], .start)
    else
      match utf8Start b with
      | (cs, st1) => (replacementChar :: cs, st1)

/-- End of input: an unfinished sequence is one maximal valid prefix,
replaced by one U+FFFD. -/
def utf8Flush : Utf8State → List Char
  | .start => []
  | _ => [replacementChar]

/-- Run the decoder over the remaining bytes. -/
def utf8Run : Utf8State → List Nat → List Char
  | st, [] => utf8Flush st
  | st, b :: t =>
    match utf8Step st b with
    | (cs, st1) => cs ++ utf8Run st1 t

/-- `String::from_utf8_lossy` as a byte-list to char-list decoder: valid
UTF-8 sequences decode to their scalar value; each maximal valid prefix
of an invalid sequence is replaced by one U+FFFD ("substitution of
maximal subparts", as Rust implements it). -/
def from_utf8_lossy (bytes : List Nat) : List Char :=
  utf8Run .start bytes

/-- `FilePreview { path, preview }` from the source. -/
structure FilePreview where
  path : String
  preview : String
deriving DecidableEq, Repr

/-- The `App` state container. `counter: u8` is a `Nat` kept in
`[0, 255]` by the saturating arithmetic of the event handlers. -/
structure AppState where
  counter : Nat
  loaded_text : Option String
  vfs : Option InMemoryVfs
  previews : List FilePreview
  status : String

/-- `App::new()`: `Default` for the remaining fields
(`counter = 0`, `loaded_text = None`). -/
def App.new : AppState :=
  { counter := 0
    loaded_text := none
    vfs := none
    previews := []
    status := "Press U to upload a crate" }

/-- The statement-by-statement transition of `App::rebuild_previews`
with its `RefCell` borrow checks elided: clear `previews`; when a VFS is
mounted, for each `path in vfs.list()` read the bytes
(`unwrap_or_default`), decode with `String::from_utf8_lossy`,
`replace('\n', " ")`, keep the first 30 chars, and push
`{ path, preview }`; afterwards, when a VFS is mounted, set `status` to
the loaded-count message. In the real program the status write is
unreachable: `rebuild_previews_run` below models the borrow dynamics and
shows the function panics at the `self.previews.borrow()` of line 89
before `self.status.replace` runs. This elided version is kept as the
transition the event-loop embedding (`handle_events`) commits. -/
def rebuild_previews (s : AppState) : AppState :=
  let previews : List FilePreview :=
    match s.vfs with
    | none => []
    | some vfs =>
      vfs.list.map fun path =>
        let bytes := (vfs.read path).getD []
        let chars := (from_utf8_lossy bytes).map fun c =>
          if c = '\n' then ' ' else c
        { path := path, preview := String.mk (chars.take 30) }
  let status : String :=
    match s.vfs with
    | none => s.status
    | some _ =>
      "Loaded " ++ toString previews.length ++ " files. Press E to export."
  { s with previews := previews, status := status }

/-- Result of running a body that can hit a `RefCell` borrow panic: the
panic aborts execution at the failing borrow, leaving the state the body
had reached by then uncommitted behind a permanently flagged cell. -/
inductive RebuildOutcome where
  | panicked (msg : String) (reached : AppState)
  | completed (reached : AppState)

/-- `App::rebuild_previews` with the `RefCell` borrow dynamics made
explicit. Line 73 (`let mut previews = self.previews.borrow_mut();`)
takes a `RefMut` guard whose destructor runs at the end of the function,
so the guard is alive for the whole body. The `self.vfs.borrow()` calls
at lines 75 and 86 touch a different cell and succeed. When the line-86
guard `self.vfs.borrow().is_some()` holds, evaluating the `format!`
argument at line 89 calls `self.previews.borrow()` while the `RefMut` is
still held, and `RefCell::borrow` panics with `BorrowError` (message
"already mutably borrowed") before `self.status.replace` executes. The
panic state carries what the body had done by then: the new preview list
was already written through the guard, `status` is untouched. With no
VFS mounted the line-86 test is false and the function completes, again
without touching `status`. -/
def rebuild_previews_run (s : AppState) : RebuildOutcome :=
  let previews : List FilePreview :=
    match s.vfs with
    | none => []
    | some vfs =>
      vfs.list.map fun path =>
        let bytes := (vfs.read path).getD []
        let chars := (from_utf8_lossy bytes).map fun c =>
          if c = '\n' then ' ' else c
        { path := path, preview := String.mk (chars.take 30) }
  match s.vfs with
  | some _ =>
    .panicked "already mutably borrowed" { s with previews := previews }
  | none =>
    .completed { s with previews := previews }

/-- Outcome of the `Request::get(file_path).send().await` call and of the
subsequent `resp.text().await` inside `load_text`. -/
inductive FetchResult where
  | sendErr (err : String)
  | textErr
  | ok (t : String)
deriving DecidableEq, Repr

/-- `load_text`: on send success return the body text
(`unwrap_or_else` the fixed decode-failure string), on send failure the
formatted fetch error; always `Some`. -/
def load_text (r : FetchResult) : Option String :=
  some (match r with
    | .ok t => t
    | .textErr => "<failed to read text>"
    | .sendErr err => "<fetch failed: " ++ err ++ ">")

/-- A keyboard event together with the outcome of the external call its
handler awaits: `charU` carries the `gather_files` result (the picked
entries, or the `JsValue` error rendered as a string), `charL` the fetch
outcome, `charE` the error of the JS export layer when it fails. -/
inductive Event where
  | left
  | right
  | charL (fetch : FetchResult)
  | charU (pick : Except String (List FileEntry))
  | charE (exportErr : Option String)
  | other
deriving Repr

/-- `App::handle_events`, as a pure transition on the oracle-carrying
event. The `Bool` records whether the `'l'` branch ran (issued the
text fetch). Branches mirror the source `match key_event.code`:
saturating counter arithmetic, the `is_none` match guard on `'l'`, the
mount-or-status branches of `'u'`, and the `'e'` export guarded by a
mounted VFS. -/
def handle_events (s : AppState) (ev : Event) : AppState × Bool :=
  match ev with
  | .left => ({ s with counter := s.counter - 1 }, false)
  | .right => ({ s with counter := min (s.counter + 1) 255 }, false)
  | .charL r =>
    if s.loaded_text.isNone then
      ({ s with loaded_text := load_text r }, true)
    else (s, false)
  | .charU pick =>
    match pick with
    | .ok files =>
      (rebuild_previews { s with vfs := some (mount_picked_crate files) }, false)
    | .error e =>
      ({ s with status := "Failed to load crate: " ++ e }, false)
  | .charE exportErr =>
    match s.vfs with
    | some _ =>
      match exportErr with
      | some e => ({ s with status := "Export failed: " ++ e }, false)
      | none => (s, false)
    | none => (s, false)
  | .other => (s, false)

/-- UTF-8 bytes of an ASCII string, for concrete test inputs. -/
def asciiBytes (s : String) : List Nat :=
  s.data.map Char.toNat

theorem lookup_insertSorted_self (p : String) (b : List Nat)
    (l : List (String × List Nat)) :
    (insertSorted p b l).lookup p = some b := by
  induction l with
  | nil => simp [insertSorted, List.lookup]
  | cons e t ih =>
    obtain ⟨k, v⟩ := e
    by_cases h1 : keyLt p k = true
    · simp [insertSorted, h1, List.lookup]
    · by_cases h2 : p = k
      · subst h2
        simp [insertSorted, h1, List.lookup]
      · simp [insertSorted, h1, h2, List.lookup, ih,
          beq_eq_false_iff_ne.mpr h2]

theorem lookup_insertSorted_ne {q p : String} (hqp : q ≠ p) (b : List Nat)
    (l : List (String × List Nat)) :
    (insertSorted p b l).lookup q = l.lookup q := by
  induction l with
  | nil => simp [insertSorted, List.lookup, beq_eq_false_iff_ne.mpr hqp]
  | cons e t ih =>
    obtain ⟨k, v⟩ := e
    by_cases h1 : keyLt p k = true
    · simp [insertSorted, h1, List.lookup, beq_eq_false_iff_ne.mpr hqp]
    · by_cases h2 : p = k
      · subst h2
        simp [insertSorted, h1, List.lookup, beq_eq_false_iff_ne.mpr hqp]
      · simp [insertSorted, h1, h2, List.lookup, ih]

theorem lookup_isSome_iff (l : List (String × List Nat)) (p : String) :
    (l.lookup p).isSome = true ↔ p ∈ l.map Prod.fst := by
  induction l with
  | nil => simp [List.lookup]
  | cons e t ih =>
    obtain ⟨k, v⟩ := e
    by_cases h : p = k
    · subst h
      simp [List.lookup]
    · simp [List.lookup, h, ih, beq_eq_false_iff_ne.mpr h]

theorem insertSorted_perm (p : String) (b : List Nat)
    {l : List (String × List Nat)} (h : p ∉ l.map Prod.fst) :
    (insertSorted p b l).Perm ((p, b) :: l) := by
  induction l with
  | nil => simp [insertSorted]
  | cons e t ih =>
    obtain ⟨k, v⟩ := e
    simp only [List.map_cons, List.mem_cons, not_or] at h
    obtain ⟨hpk, hpt⟩ := h
    by_cases h1 : keyLt p k = true
    · simp [insertSorted, h1]
    · by_cases h2 : p = k
      · exact absurd h2 hpk
      · simp only [insertSorted, if_neg h1, if_neg h2]
        exact ((ih hpt).cons (k, v)).trans (List.Perm.swap (p, b) (k, v) t)

theorem read_of_mem_sorted {files : List (String × List Nat)}
    (hs : files.Pairwise fun a b => a.1 < b.1) {p : String} {bts : List Nat}
    (hm : (p, bts) ∈ files) : files.lookup p = some bts := by
  induction files with
  | nil => cases hm
  | cons e t ih =>
    obtain ⟨k, v⟩ := e
    rw [List.pairwise_cons] at hs
    rcases List.mem_cons.mp hm with h | h
    · obtain ⟨rfl, rfl⟩ := Prod.mk.injEq .. ▸ h
      simp [List.lookup]
    · have hk : p ≠ k := by
        intro he
        subst he
        exact absurd (hs.1 _ h) (by simp)
      simp [List.lookup, beq_eq_false_iff_ne.mpr hk, ih hs.2 h]

theorem files_foldl_write (F : List FileEntry) (v : InMemoryVfs) :
    (F.foldl (fun m f => m.write f.path f.bytes) v).files
      = F.foldl (fun l f => insertSorted f.path f.bytes l) v.files := by
  induction F generalizing v with
  | nil => rfl
  | cons f F ih => simpa [List.foldl_cons, InMemoryVfs.write] using ih (v.write f.path f.bytes)

theorem foldl_insert_perm (F : List FileEntry) (acc : List (String × List Nat))
    (h : (acc.map Prod.fst ++ F.map FileEntry.path).Nodup) :
    (F.foldl (fun l f => insertSorted f.path f.bytes l) acc).Perm
      (acc ++ F.map fun f => (f.path, f.bytes)) := by
  induction F generalizing acc with
  | nil => simp
  | cons f F ih =>
    rw [List.nodup_append] at h
    obtain ⟨hacc, hrest, hdisj⟩ := h
    obtain ⟨hfF, hFnd⟩ := List.nodup_cons.mp hrest
    have hp : f.path ∉ acc.map Prod.fst := fun hmem =>
      hdisj hmem (List.mem_cons_self _ _)
    have hperm1 : (insertSorted f.path f.bytes acc).Perm ((f.path, f.bytes) :: acc) :=
      insertSorted_perm _ _ hp
    have hkeys : ((insertSorted f.path f.bytes acc).map Prod.fst).Perm
        (f.path :: acc.map Prod.fst) := by
      simpa using hperm1.map Prod.fst
    have hnd :
        (((insertSorted f.path f.bytes acc).map Prod.fst) ++ F.map FileEntry.path).Nodup := by
      refine ((hkeys.append_right _).nodup_iff).mpr ?_
      rw [List.cons_append, List.nodup_cons]
      refine ⟨?_, List.nodup_append.mpr ⟨hacc, hFnd, fun a ha hb => hdisj ha (List.mem_cons_of_mem _ hb)⟩⟩
      rw [List.mem_append, not_or]
      exact ⟨hp, hfF⟩
    rw [List.foldl_cons, List.map_cons]
    refine ((ih _ hnd).trans (hperm1.append_right _)).trans ?_
    rw [List.cons_append]
    exact List.perm_middle.symm

theorem export_as_zip_eq (v : InMemoryVfs) :
    export_as_zip v = v.files.map fun e => { path := e.1, bytes := e.2 } := by
  unfold export_as_zip InMemoryVfs.list
  rw [List.map_map]
  refine List.map_congr_left fun e he => ?_
  have hr : v.read e.1 = some e.2 := read_of_mem_sorted v.sorted (by simpa using he)
  simp [Function.comp, hr]

/-- The bytes paired with the last occurrence of path `p` in pick order —
the claim's characterization of how duplicate paths are mounted. -/
def lastPickedBytes (p : String) : List FileEntry → Option (List Nat)
  | [] => none
  | f :: t =>
    match lastPickedBytes p t with
    | some bts => some bts
    | none => if f.path = p then some f.bytes else none

theorem lookup_foldl_insert (F : List FileEntry)
    (acc : List (String × List Nat)) (p : String) :
    (F.foldl (fun l f => insertSorted f.path f.bytes l) acc).lookup p
      = match lastPickedBytes p F with
        | some bts => some bts
        | none => acc.lookup p := by
  induction F generalizing acc with
  | nil => rfl
  | cons f F ih =>
    rw [List.foldl_cons, ih]
    cases hl : lastPickedBytes p F with
    | some bts => simp [lastPickedBytes, hl]
    | none =>
      simp only [lastPickedBytes, hl]
      by_cases hp : f.path = p
      · subst hp
        simp [lookup_insertSorted_self]
      · rw [lookup_insertSorted_ne (fun he => hp he.symm)]
        simp [hp]

theorem counter_step_le (s : AppState) (ev : Event) (h : s.counter ≤ 255) :
    (handle_events s ev).1.counter ≤ 255 := by
  cases ev with
  | left =>
    simp only [handle_events]
    omega
  | right =>
    simp only [handle_events]
    omega
  | charL r =>
    simp only [handle_events]
    split
    · exact h
    · exact h
  | charU pick =>
    cases pick with
    | ok files => exact h
    | error e => exact h
  | charE oe =>
    cases hv : s.vfs with
    | none => simpa only [handle_events, hv] using h
    | some v =>
      cases oe with
      | none => simpa only [handle_events, hv] using h
      | some e => simpa only [handle_events, hv] using h
  | other => exact h

/-- Claim C1: mounting a file set (a picked sequence with pairwise
distinct paths) and then exporting reproduces exactly the same
path/bytes pairs, with the order normalized to lexicographic order of
path. -/
theorem C1_mount_export_roundtrip (F : List FileEntry)
    (h : (F.map FileEntry.path).Nodup) :
    (export_as_zip (mount_picked_crate F)).Perm F ∧
    ((export_as_zip (mount_picked_crate F)).map FileEntry.path).Pairwise (· < ·) := by
  have hmf : (mount_picked_crate F).files
      = F.foldl (fun l f => insertSorted f.path f.bytes l) [] :=
    files_foldl_write F _
  have hfiles : (mount_picked_crate F).files.Perm (F.map fun f => (f.path, f.bytes)) := by
    rw [hmf]
    simpa using foldl_insert_perm F [] (by simpa using h)
  constructor
  · rw [export_as_zip_eq]
    have h2 := hfiles.map fun e : String × List Nat =>
      ({ path := e.1, bytes := e.2 } : FileEntry)
    rw [List.map_map] at h2
    have h3 : (F.map (((fun e : String × List Nat =>
        ({ path := e.1, bytes := e.2 } : FileEntry)))
          ∘ fun f => (f.path, f.bytes))) = F := by
      have hfun : ((fun e : String × List Nat =>
          ({ path := e.1, bytes := e.2 } : FileEntry))
            ∘ fun f : FileEntry => (f.path, f.bytes)) = id :=
        funext fun f => rfl
      rw [hfun, List.map_id]
    rwa [h3] at h2
  · rw [export_as_zip_eq, List.map_map]
    have h4 : ((fun e : FileEntry => e.path) ∘ fun e : String × List Nat =>
        ({ path := e.1, bytes := e.2 } : FileEntry)) = Prod.fst :=
      funext fun e => rfl
    rw [h4]
    exact List.pairwise_map.mpr (mount_picked_crate F).sorted

theorem C1_mount_export_roundtrip_witness :
    (export_as_zip (mount_picked_crate
        [⟨"b.txt", [1, 2]⟩, ⟨"a.txt", [3]⟩])).Perm
      [⟨"b.txt", [1, 2]⟩, ⟨"a.txt", [3]⟩] ∧
    ((export_as_zip (mount_picked_crate
        [⟨"b.txt", [1, 2]⟩, ⟨"a.txt", [3]⟩])).map FileEntry.path).Pairwise (· < ·) :=
  C1_mount_export_roundtrip [⟨"b.txt", [1, 2]⟩, ⟨"a.txt", [3]⟩] (by decide)

/-- Claim C2 (code bug): with the `RefCell` borrow dynamics modelled,
the preview projection does discard the previous preview list and build,
in `list()` order, exactly the claimed `{path, preview}` entries
(best-effort UTF-8 decode, newlines to spaces, first 30 characters) —
but for every mounted VFS it then panics at the line-89
`self.previews.borrow()` before completing, leaving `status` untouched,
so the projection never returns normally and its output is never
observable. -/
theorem C2_preview_projection_panics (s : AppState) (v : InMemoryVfs) :
    rebuild_previews_run { s with vfs := some v }
      = .panicked "already mutably borrowed"
          { s with
            vfs := some v
            previews := v.list.map fun path =>
              { path := path
                preview := String.mk (((from_utf8_lossy ((v.read path).getD [])).map
                  fun c => if c = '\n' then ' ' else c).take 30) } } := rfl

/-- Claim C3: the counter never wraps: `Left` at 0 leaves 0, `Right` at
255 leaves 255, and over every event sequence the counter stays within
`[0, 255]` (it is a `Nat`, so the lower bound is inherent). -/
theorem C3_counter_clamped :
    (∀ s : AppState, s.counter = 0 → (handle_events s .left).1.counter = 0) ∧
    (∀ s : AppState, s.counter = 255 → (handle_events s .right).1.counter = 255) ∧
    ∀ (evs : List Event) (s : AppState), s.counter ≤ 255 →
      (evs.foldl (fun t e => (handle_events t e).1) s).counter ≤ 255 := by
  refine ⟨?_, ?_, ?_⟩
  · intro s h
    simp [handle_events, h]
  · intro s h
    simp [handle_events, h]
  · intro evs
    induction evs with
    | nil => intro s h; exact h
    | cons e evs ih => intro s h; exact ih _ (counter_step_le s e h)

theorem C3_counter_clamped_witness :
    (handle_events App.new .left).1.counter = 0 ∧
    (handle_events { App.new with counter := 255 } .right).1.counter = 255 ∧
    ([Event.right, Event.left].foldl
        (fun t e => (handle_events t e).1) App.new).counter ≤ 255 :=
  ⟨C3_counter_clamped.1 App.new rfl,
   C3_counter_clamped.2.1 { App.new with counter := 255 } rfl,
   C3_counter_clamped.2.2 [Event.right, Event.left] App.new (by decide)⟩

/-- Claim C4: when the file pick behind `'u'` fails, the handler leaves
`vfs`, `previews` (and `counter`, `loaded_text`) unchanged and only sets
`status` to the formatted error message. -/
theorem C4_failed_mount_frame (s : AppState) (e : String) :
    (handle_events s (.charU (.error e))).1.vfs = s.vfs ∧
    (handle_events s (.charU (.error e))).1.previews = s.previews ∧
    (handle_events s (.charU (.error e))).1.counter = s.counter ∧
    (handle_events s (.charU (.error e))).1.loaded_text = s.loaded_text ∧
    (handle_events s (.charU (.error e))).1.status = "Failed to load crate: " ++ e :=
  ⟨rfl, rfl, rfl, rfl, rfl⟩

/-- Claim C5: `'l'` is idempotent: with `loadedText` present the event
is a no-op issuing no fetch, so two consecutive `'l'` presses never
fetch twice and `loadedText` after the second press equals its value
after the first. -/
theorem C5_l_idempotent :
    (∀ (s : AppState) (o : FetchResult), s.loaded_text.isSome = true →
        handle_events s (.charL o) = (s, false)) ∧
    ∀ (s : AppState) (o1 o2 : FetchResult),
      (handle_events (handle_events s (.charL o1)).1 (.charL o2)).1.loaded_text
          = (handle_events s (.charL o1)).1.loaded_text ∧
      ¬((handle_events s (.charL o1)).2 = true ∧
        (handle_events (handle_events s (.charL o1)).1 (.charL o2)).2 = true) := by
  have hnoop : ∀ (s : AppState) (o : FetchResult), s.loaded_text.isSome = true →
      handle_events s (.charL o) = (s, false) := by
    intro s o h
    cases hs : s.loaded_text with
    | none => rw [hs] at h; cases h
    | some t => simp [handle_events, hs]
  refine ⟨hnoop, ?_⟩
  intro s o1 o2
  cases hs : s.loaded_text with
  | some t =>
    rw [hnoop s o1 (by simp [hs])]
    rw [hnoop s o2 (by simp [hs])]
    exact ⟨rfl, by simp⟩
  | none =>
    have h1 : handle_events s (.charL o1)
        = ({ s with loaded_text := load_text o1 }, true) := by
      simp [handle_events, hs]
    rw [h1]
    rw [hnoop { s with loaded_text := load_text o1 } o2 (by simp [load_text])]
    exact ⟨rfl, by simp⟩

theorem C5_l_idempotent_witness :
    handle_events { App.new with loaded_text := some "t" } (.charL .textErr)
      = ({ App.new with loaded_text := some "t" }, false) :=
  C5_l_idempotent.1 { App.new with loaded_text := some "t" } .textErr (by decide)

/-- Claim C6: handling `'l'` with `loadedText` absent always ends with
`loadedText` present — the fetched text on success, a formatted error
string on failure — and the `status` channel is untouched. -/
theorem C6_load_text_always_present (s : AppState) (r : FetchResult)
    (h : s.loaded_text = none) :
    (handle_events s (.charL r)).1.loaded_text
      = some (match r with
          | .ok t => t
          | .textErr => "<failed to read text>"
          | .sendErr err => "<fetch failed: " ++ err ++ ">") ∧
    (handle_events s (.charL r)).1.status = s.status := by
  simp [handle_events, h, load_text]

theorem C6_load_text_always_present_witness :
    (handle_events App.new (.charL (.sendErr "net"))).1.loaded_text
      = some "<fetch failed: net>" ∧
    (handle_events App.new (.charL (.sendErr "net"))).1.status = App.new.status :=
  C6_load_text_always_present App.new (.sendErr "net") rfl

/-- Claim C7 (code bug): the status message after a successful mount is
never set. On every mounted VFS — in particular the claim's two-file
scenario — `rebuild_previews` evaluates `self.previews.borrow()` at
line 89 while the line-73 `RefMut` is still alive and panics before
`self.status.replace` runs: the claimed preview entries are built, but
`status` keeps its prior value instead of becoming
"Loaded 2 files. Press E to export.". -/
theorem C7_status_never_set :
    (∀ (s : AppState) (v : InMemoryVfs), ∃ t,
        rebuild_previews_run { s with vfs := some v }
          = .panicked "already mutably borrowed" t ∧ t.status = s.status) ∧
    ∃ t,
      rebuild_previews_run { App.new with vfs := some (mount_picked_crate
          [⟨"a.txt", asciiBytes "hi"⟩,
           ⟨"b/c.txt", asciiBytes "line1\nline2 with extra text beyond thirty chars"⟩]) }
        = .panicked "already mutably borrowed" t ∧
      t.previews = [⟨"a.txt", "hi"⟩, ⟨"b/c.txt", "line1 line2 with extra text be"⟩] ∧
      t.status = "Press U to upload a crate" ∧
      t.status ≠ "Loaded 2 files. Press E to export." := by
  constructor
  · intro s v
    exact ⟨_, rfl, rfl⟩
  · exact ⟨_, rfl, by decide, rfl, by decide⟩

/-- Claim C8: `list()` enumerates exactly the stored paths, in
lexicographic order, and is a deterministic function of the stored
file map. -/
theorem C8_list_sorted_complete (v : InMemoryVfs) :
    v.list.Pairwise (· < ·) ∧
    (∀ p, p ∈ v.list ↔ (v.read p).isSome = true) ∧
    ∀ w : InMemoryVfs, w.files = v.files → w.list = v.list := by
  refine ⟨List.pairwise_map.mpr v.sorted, ?_, ?_⟩
  · intro p
    exact (lookup_isSome_iff v.files p).symm
  · intro w hw
    rw [InMemoryVfs.list, InMemoryVfs.list, hw]

theorem C8_list_sorted_complete_witness :
    ("a" ∈ (mount_picked_crate [⟨"b", [2]⟩, ⟨"a", [1]⟩]).list) ∧
    (mount_picked_crate [⟨"b", [2]⟩, ⟨"a", [1]⟩]).list
      = (mount_picked_crate [⟨"b", [2]⟩, ⟨"a", [1]⟩]).list :=
  ⟨((C8_list_sorted_complete (mount_picked_crate [⟨"b", [2]⟩, ⟨"a", [1]⟩])).2.1 "a").mpr
      (by decide),
   (C8_list_sorted_complete (mount_picked_crate [⟨"b", [2]⟩, ⟨"a", [1]⟩])).2.2 _ rfl⟩

/-- Claim C9: `write` is an upsert with a frame property: after
`write(p, b)`, `read(p)` returns exactly `b`, and `read(q)` for any
other path `q ≠ p` is unchanged. -/
theorem C9_write_frame (v : InMemoryVfs) (p : String) (b : List Nat) :
    (v.write p b).read p = some b ∧
    ∀ q, q ≠ p → (v.write p b).read q = v.read q :=
  ⟨lookup_insertSorted_self p b v.files,
   fun q hq => lookup_insertSorted_ne hq b v.files⟩

theorem C9_write_frame_witness :
    ((mount_picked_crate [⟨"a.txt", [104, 105]⟩]).write "b.txt" [1]).read "b.txt"
      = some [1] ∧
    ((mount_picked_crate [⟨"a.txt", [104, 105]⟩]).write "b.txt" [1]).read "a.txt"
      = (mount_picked_crate [⟨"a.txt", [104, 105]⟩]).read "a.txt" :=
  ⟨(C9_write_frame (mount_picked_crate [⟨"a.txt", [104, 105]⟩]) "b.txt" [1]).1,
   (C9_write_frame (mount_picked_crate [⟨"a.txt", [104, 105]⟩]) "b.txt" [1]).2
     "a.txt" (by decide)⟩

/-- Claim C10: mounting a picked sequence with duplicate paths keeps one
entry per path holding the bytes of the last occurrence in pick order,
and the mounted VFS's path keys are unique. -/
theorem C10_duplicate_last_wins (F : List FileEntry) (p : String) :
    (mount_picked_crate F).read p = lastPickedBytes p F ∧
    (mount_picked_crate F).list.Nodup := by
  constructor
  · rw [InMemoryVfs.read, mount_picked_crate, files_foldl_write, lookup_foldl_insert]
    cases hl : lastPickedBytes p F <;> simp [List.lookup]
  · exact List.Pairwise.imp ne_of_lt
      (List.pairwise_map.mpr (mount_picked_crate F).sorted)
